import Mathlib

/-!
Verification of the `bitmatrix` crate (`src/lib.rs`) against its specification.

The crate stores a two-dimensional bit matrix as a single packed bit buffer
(`BitBox`) of `height * width` bits together with the two dimensions.  We embed
the buffer as a `List Bool` (one entry per bit, in physical order) and every
panicking operation as an `Option`-valued function, `none` meaning a panic
(Rust's out-of-bounds index / slice-range panic, or `chunks_exact`'s zero-size
panic).
-/

/-- Range slicing `l[b .. e]` of a (bit-)slice, as in Rust: the sub-slice from
`b` (inclusive) to `e` (exclusive); panics (`none`) when `b > e` or
`e > l.length`. -/
def listSlice (l : List Bool) (b e : Nat) : Option (List Bool) :=
  if b ≤ e ∧ e ≤ l.length then some ((l.take e).drop b) else none

/-- Recursion core of `chunksExact`: the `fuel` argument only bounds the
recursion depth (each step removes at least one element when `0 < k`, so
`l.length` is always enough fuel); it keeps the definition structurally
recursive, hence evaluable by the kernel. -/
def chunksExactGo (fuel : Nat) (l : List Bool) (k : Nat) : List (List Bool) :=
  match fuel with
  | 0 => []
  | fuel + 1 =>
    if 0 < k ∧ k ≤ l.length then l.take k :: chunksExactGo fuel (l.drop k) k
    else []

/-- Embedding of `chunks_exact(k)` for `k > 0`: the maximal list of consecutive
chunks of exactly `k` elements, the remainder (shorter than `k`) discarded.
The `k = 0` panic of `chunks_exact` is handled at the call site (`rows`). -/
def chunksExact (l : List Bool) (k : Nat) : List (List Bool) :=
  chunksExactGo l.length l k

/-- Embedding of `struct BitMatrix { storage: BitBox<Lsb0, usize>, height: usize,
width: usize }`.  `storage` is the packed bit buffer in physical bit order. -/
structure BitMatrix where
  storage : List Bool
  height : Nat
  width : Nat
deriving DecidableEq

/-- Embedding of `BitMatrix::new`: a buffer of `height * width` bits, all
`false`. -/
def BitMatrix.new (height width : Nat) : BitMatrix :=
  { storage := List.replicate (height * width) false, height := height, width := width }

/-- Embedding of the private helper `row_ix`: `i * self.width`. -/
def BitMatrix.row_ix (m : BitMatrix) (i : Nat) : Nat :=
  i * m.width

/-- Embedding of `Index<usize>::index` (and of the identical bounds computation
in `IndexMut<usize>::index_mut`): the row view
`&self.storage[row_ix(i) .. row_ix(i + 1)]`. -/
def BitMatrix.index (m : BitMatrix) (i : Nat) : Option (List Bool) :=
  listSlice m.storage (m.row_ix i) (m.row_ix (i + 1))

/-- Embedding of `Index<(usize, usize)>::index`, which is `&self[i][j]`: take
the row view for `i`, then index bit `j` inside it. -/
def BitMatrix.indexPair (m : BitMatrix) (p : Nat × Nat) : Option Bool :=
  match m.index p.1 with
  | some r => r[p.2]?
  | none => none

/-- Embedding of `BitMatrix::set`, which is `self[i].set(j, value)`: take the
mutable row view for `i` (same bounds computation as `index`), then
`BitSlice::set(j, value)`, which panics when `j` is out of the view's bounds
and otherwise writes the bit at physical offset `row_ix(i) + j`. -/
def BitMatrix.set (m : BitMatrix) (p : Nat × Nat) (v : Bool) : Option BitMatrix :=
  match m.index p.1 with
  | some r =>
    if p.2 < r.length then
      some { m with storage := m.storage.set (m.row_ix p.1 + p.2) v }
    else none
  | none => none

/-- Embedding of `BitMatrix::set_all`: every bit of the buffer becomes `v`. -/
def BitMatrix.set_all (m : BitMatrix) (v : Bool) : BitMatrix :=
  { m with storage := List.replicate m.storage.length v }

/-- Embedding of `BitMatrix::iter`: the bits of the buffer in physical order. -/
def BitMatrix.iter (m : BitMatrix) : List Bool :=
  m.storage

/-- Embedding of an assignment through the `k`-th element yielded by
`BitMatrix::iter_mut`: the proxy writes the bit at physical offset `k` in
place. -/
def BitMatrix.iterMutSet (m : BitMatrix) (k : Nat) (v : Bool) : BitMatrix :=
  { m with storage := m.storage.set k v }

/-- Embedding of `BitMatrix::rows`, which is
`self.storage.chunks_exact(self.width)`; `chunks_exact` panics (`none`) when
the chunk size `self.width` is zero. -/
def BitMatrix.rows (m : BitMatrix) : Option (List (List Bool)) :=
  if 0 < m.width then some (chunksExact m.storage m.width) else none

/-- Embedding of `BitMatrix::rows_mut`, which is
`self.storage.chunks_exact_mut(self.width)`: the same decomposition as
`rows`, with the same zero-size panic. -/
def BitMatrix.rows_mut (m : BitMatrix) : Option (List (List Bool)) :=
  if 0 < m.width then some (chunksExact m.storage m.width) else none

/-- Embedding of the derived `PartialEq`: field-wise comparison of `storage`,
`height` and `width`. -/
def BitMatrix.beq (a b : BitMatrix) : Bool :=
  a.storage == b.storage && a.height == b.height && a.width == b.width

/-- Embedding of the derived `Hash`.  The derive feeds the three fields, in
order, into the hasher, so the hash value is a deterministic function of
`(storage, height, width)`; we model it as one concrete such function. -/
def BitMatrix.hashFields (m : BitMatrix) : Nat :=
  (m.storage.foldl (fun a b => 2 * a + cond b 1 0) 1) * 2654435761 +
    m.height * 40503 + m.width

/-- Embedding of the derived `Clone`: a field-wise copy (`BitBox::clone` copies
the whole buffer into fresh storage, so the copy shares nothing with the
original). -/
def BitMatrix.clone (m : BitMatrix) : BitMatrix :=
  { storage := m.storage, height := m.height, width := m.width }

/-- Representation invariant of `BitMatrix`: the buffer holds exactly
`height * width` bits. -/
def BitMatrix.wf (m : BitMatrix) : Prop :=
  m.storage.length = m.height * m.width

instance (m : BitMatrix) : Decidable m.wf :=
  inferInstanceAs (Decidable (m.storage.length = m.height * m.width))

/-! Helper lemmas about slicing and row views. -/

theorem listSlice_eq_some {l : List Bool} {b e : Nat} (hbe : b ≤ e) (hel : e ≤ l.length) :
    listSlice l b e = some ((l.take e).drop b) := by
  simp [listSlice, hbe, hel]

theorem slice_getElem (l : List Bool) (b e j : Nat) :
    ((l.take e).drop b)[j]? = if b + j < e then l[b + j]? else none := by
  rw [List.getElem?_drop, List.getElem?_take]

theorem slice_length {l : List Bool} {b e : Nat} (hbe : b ≤ e) (hel : e ≤ l.length) :
    ((l.take e).drop b).length = e - b := by
  simp only [List.length_drop, List.length_take]
  omega

theorem row_lower_le {i w : Nat} : i * w ≤ (i + 1) * w := by
  rw [Nat.succ_mul]
  omega

theorem index_eq_of_le {m : BitMatrix} {i : Nat} (h : (i + 1) * m.width ≤ m.storage.length) :
    m.index i = some ((m.storage.take ((i + 1) * m.width)).drop (i * m.width)) := by
  simp only [BitMatrix.index, BitMatrix.row_ix]
  exact listSlice_eq_some row_lower_le h

theorem index_eq_none {m : BitMatrix} {i : Nat} (h : m.storage.length < (i + 1) * m.width) :
    m.index i = none := by
  simp only [BitMatrix.index, BitMatrix.row_ix, listSlice, ite_eq_right_iff]
  intro hc
  omega

theorem index_some_cases {m : BitMatrix} {i : Nat} {r : List Bool} (h : m.index i = some r) :
    (i + 1) * m.width ≤ m.storage.length ∧
      r = (m.storage.take ((i + 1) * m.width)).drop (i * m.width) := by
  by_cases hle : (i + 1) * m.width ≤ m.storage.length
  · rw [index_eq_of_le hle] at h
    exact ⟨hle, (Option.some.inj h).symm⟩
  · rw [index_eq_none (Nat.not_le.mp hle)] at h
    cases h

theorem index_length {m : BitMatrix} {i : Nat} {r : List Bool} (h : m.index i = some r) :
    r.length = m.width := by
  obtain ⟨hle, rfl⟩ := index_some_cases h
  rw [slice_length row_lower_le hle, Nat.succ_mul]
  omega

theorem index_getElem {m : BitMatrix} {i : Nat} {r : List Bool} (h : m.index i = some r)
    (j : Nat) : r[j]? = if j < m.width then m.storage[i * m.width + j]? else none := by
  obtain ⟨hle, rfl⟩ := index_some_cases h
  rw [slice_getElem]
  have hiff : i * m.width + j < (i + 1) * m.width ↔ j < m.width := by
    rw [Nat.succ_mul]
    omega
  rw [if_congr hiff rfl rfl]

theorem index_in_range {m : BitMatrix} (hm : m.wf) {i : Nat} (hi : i < m.height) :
    ∃ r, m.index i = some r := by
  refine ⟨_, index_eq_of_le ?_⟩
  rw [hm]
  exact Nat.mul_le_mul_right _ hi

theorem index_oob {m : BitMatrix} (hm : m.wf) (hw : 0 < m.width) {i : Nat}
    (hi : m.height ≤ i) : m.index i = none := by
  apply index_eq_none
  rw [hm]
  have h1 : m.height * m.width ≤ i * m.width := Nat.mul_le_mul_right _ hi
  rw [Nat.succ_mul]
  omega

theorem index_success_height {m : BitMatrix} (hm : m.wf) (hw : 0 < m.width) {i : Nat}
    {r : List Bool} (h : m.index i = some r) : i < m.height := by
  by_contra hc
  rw [index_oob hm hw (Nat.not_lt.mp hc)] at h
  cases h

theorem indexPair_lookup {m : BitMatrix} (hm : m.wf) {i j : Nat} (hi : i < m.height)
    (hj : j < m.width) : m.indexPair (i, j) = m.storage[i * m.width + j]? := by
  obtain ⟨r, hr⟩ := index_in_range hm hi
  simp only [BitMatrix.indexPair, hr, index_getElem hr, if_pos hj]

theorem offset_lt {m : BitMatrix} (hm : m.wf) {i j : Nat} (hi : i < m.height)
    (hj : j < m.width) : i * m.width + j < m.storage.length := by
  rw [hm]
  have h1 : (i + 1) * m.width ≤ m.height * m.width := Nat.mul_le_mul_right _ hi
  rw [Nat.succ_mul] at h1
  omega

theorem indexPair_in_range {m : BitMatrix} (hm : m.wf) {i j : Nat} (hi : i < m.height)
    (hj : j < m.width) :
    m.indexPair (i, j) = some (m.storage.getD (i * m.width + j) false) := by
  rw [indexPair_lookup hm hi hj, List.getElem?_eq_getElem (offset_lt hm hi hj)]
  rw [List.getD_eq_getElem _ _ (offset_lt hm hi hj)]

theorem indexPair_oob {m : BitMatrix} (hm : m.wf) {i j : Nat}
    (hij : m.height ≤ i ∨ m.width ≤ j) : m.indexPair (i, j) = none := by
  rcases hr : m.index i with _ | r
  · simp only [BitMatrix.indexPair, hr]
  · simp only [BitMatrix.indexPair, hr, index_getElem hr, ite_eq_right_iff]
    intro hj
    rcases hij with hi | hj2
    · exfalso
      obtain ⟨hle, -⟩ := index_some_cases hr
      rw [hm] at hle
      have h1 : m.height * m.width ≤ i * m.width := Nat.mul_le_mul_right _ hi
      rw [Nat.succ_mul] at hle
      omega
    · omega

theorem set_eq_some {m : BitMatrix} (hm : m.wf) {i j : Nat} (hi : i < m.height)
    (hj : j < m.width) (v : Bool) :
    m.set (i, j) v = some { m with storage := m.storage.set (i * m.width + j) v } := by
  obtain ⟨r, hr⟩ := index_in_range hm hi
  have hlen : r.length = m.width := index_length hr
  simp only [BitMatrix.set, hr, hlen, if_pos hj, BitMatrix.row_ix]

theorem set_oob {m : BitMatrix} (hm : m.wf) {i j : Nat}
    (hij : m.height ≤ i ∨ m.width ≤ j) (v : Bool) : m.set (i, j) v = none := by
  rcases hr : m.index i with _ | r
  · simp only [BitMatrix.set, hr]
  · have hlen : r.length = m.width := index_length hr
    simp only [BitMatrix.set, hr, hlen, ite_eq_right_iff]
    intro hj
    rcases hij with hi | hj2
    · exfalso
      obtain ⟨hle, -⟩ := index_some_cases hr
      rw [hm] at hle
      have h1 : m.height * m.width ≤ i * m.width := Nat.mul_le_mul_right _ hi
      rw [Nat.succ_mul] at hle
      omega
    · omega

theorem offset_inj {w i j i' j' : Nat} (hj : j < w) (hj' : j' < w)
    (h : i * w + j = i' * w + j') : i = i' ∧ j = j' := by
  have hw : 0 < w := Nat.lt_of_le_of_lt (Nat.zero_le j) hj
  have d1 : (i * w + j) / w = i := by
    rw [Nat.add_comm, Nat.add_mul_div_right _ _ hw, Nat.div_eq_of_lt hj, Nat.zero_add]
  have d2 : (i' * w + j') / w = i' := by
    rw [Nat.add_comm, Nat.add_mul_div_right _ _ hw, Nat.div_eq_of_lt hj', Nat.zero_add]
  have m1 : (i * w + j) % w = j := by
    rw [Nat.add_comm, Nat.add_mul_mod_self_right, Nat.mod_eq_of_lt hj]
  have m2 : (i' * w + j') % w = j' := by
    rw [Nat.add_comm, Nat.add_mul_mod_self_right, Nat.mod_eq_of_lt hj']
  constructor
  · rw [← d1, ← d2, h]
  · rw [← m1, ← m2, h]

theorem set_frame {m : BitMatrix} (hm : m.wf) {i j : Nat} (hi : i < m.height)
    (hj : j < m.width) (v : Bool) :
    ∃ m2, m.set (i, j) v = some m2 ∧ m2.height = m.height ∧ m2.width = m.width ∧
      m2.wf ∧ m2.indexPair (i, j) = some v ∧
      ∀ i' j', (i', j') ≠ (i, j) → m2.indexPair (i', j') = m.indexPair (i', j') := by
  refine ⟨_, set_eq_some hm hi hj v, rfl, rfl, ?_, ?_, ?_⟩
  · show (m.storage.set (i * m.width + j) v).length = m.height * m.width
    rw [List.length_set]
    exact hm
  · have hm2 : (BitMatrix.mk (m.storage.set (i * m.width + j) v) m.height m.width).wf := by
      show (m.storage.set (i * m.width + j) v).length = m.height * m.width
      rw [List.length_set]
      exact hm
    rw [indexPair_lookup hm2 hi hj]
    show (m.storage.set (i * m.width + j) v)[i * m.width + j]? = some v
    rw [List.getElem?_set]
    rw [if_pos rfl, if_pos (offset_lt hm hi hj)]
  · intro i' j' hne
    have hm2 : (BitMatrix.mk (m.storage.set (i * m.width + j) v) m.height m.width).wf := by
      show (m.storage.set (i * m.width + j) v).length = m.height * m.width
      rw [List.length_set]
      exact hm
    by_cases hin : i' < m.height ∧ j' < m.width
    · rw [indexPair_lookup hm2 hin.1 hin.2, indexPair_lookup hm hin.1 hin.2]
      show (m.storage.set (i * m.width + j) v)[i' * m.width + j']? = _
      rw [List.getElem?_set, if_neg]
      intro heq
      exact hne (by
        obtain ⟨h1, h2⟩ := offset_inj hj hin.2 heq
        rw [h1, h2])
    · have hij : m.height ≤ i' ∨ m.width ≤ j' := by omega
      rw [indexPair_oob hm2 hij, indexPair_oob hm hij]

theorem chunksExactGo_spec {w : Nat} (hw : 0 < w) (h : Nat) :
    ∀ (l : List Bool) (fuel : Nat), l.length = h * w → l.length ≤ fuel →
      (chunksExactGo fuel l w).length = h ∧
      (chunksExactGo fuel l w).flatten = l ∧
      (∀ r, r ∈ chunksExactGo fuel l w → r.length = w) ∧
      (∀ k, k < h → (chunksExactGo fuel l w)[k]? =
        some ((l.take ((k + 1) * w)).drop (k * w))) := by
  induction h with
  | zero =>
    intro l fuel hl hf
    have hnil : l = [] := List.eq_nil_of_length_eq_zero (by simpa using hl)
    subst hnil
    cases fuel with
    | zero => exact ⟨rfl, rfl, fun r hr => absurd hr (List.not_mem_nil r), fun k hk => absurd hk (by omega)⟩
    | succ fuel =>
      have : ¬ (0 < w ∧ w ≤ ([] : List Bool).length) := by
        simp only [List.length_nil]
        omega
      simp only [chunksExactGo, if_neg this]
      exact ⟨rfl, rfl, fun r hr => absurd hr (List.not_mem_nil r), fun k hk => absurd hk (by omega)⟩
  | succ h ih =>
    intro l fuel hl hf
    have hwl : w ≤ l.length := by
      rw [hl, Nat.succ_mul]
      omega
    obtain ⟨fuel, rfl⟩ : ∃ f, fuel = f + 1 := ⟨fuel - 1, by omega⟩
    simp only [chunksExactGo, if_pos (And.intro hw hwl)]
    have hdl : (l.drop w).length = h * w := by
      rw [List.length_drop, hl, Nat.succ_mul]
      omega
    have hdf : (l.drop w).length ≤ fuel := by
      rw [List.length_drop]
      omega
    obtain ⟨ih1, ih2, ih3, ih4⟩ := ih (l.drop w) fuel hdl hdf
    refine ⟨by simp [ih1], ?_, ?_, ?_⟩
    · rw [List.flatten_cons, ih2, List.take_append_drop]
    · intro r hr
      rcases List.mem_cons.mp hr with rfl | hr
      · rw [List.length_take]
        omega
      · exact ih3 r hr
    · intro k hk
      cases k with
      | zero =>
        simp only [List.getElem?_cons_zero, Nat.zero_mul, List.drop_zero]
        have e0 : (0 + 1) * w = w := by omega
        rw [e0]
      | succ k =>
        rw [List.getElem?_cons_succ, ih4 k (by omega)]
        have e1 : (l.drop w).take ((k + 1) * w) = (l.take (w + (k + 1) * w)).drop w :=
          List.take_drop w ((k + 1) * w) l
        have e2 : w + (k + 1) * w = (k + 1 + 1) * w := by
          rw [Nat.succ_mul (k + 1) w]
          omega
        rw [e1, e2, List.drop_drop]
        have e3 : w + k * w = (k + 1) * w := by
          rw [Nat.succ_mul]
          omega
        rw [e3]

theorem chunksExact_spec {w : Nat} (hw : 0 < w) {h : Nat} {l : List Bool}
    (hl : l.length = h * w) :
    (chunksExact l w).length = h ∧
    (chunksExact l w).flatten = l ∧
    (∀ r, r ∈ chunksExact l w → r.length = w) ∧
    (∀ k, k < h → (chunksExact l w)[k]? =
      some ((l.take ((k + 1) * w)).drop (k * w))) :=
  chunksExactGo_spec hw h l l.length hl (Nat.le_refl _)

theorem beq_iff {a b : BitMatrix} :
    a.beq b = true ↔ a.storage = b.storage ∧ a.height = b.height ∧ a.width = b.width := by
  simp [BitMatrix.beq, Bool.and_eq_true, and_assoc]

theorem storage_ext {a b : BitMatrix} (ha : a.wf) (hb : b.wf) (hh : a.height = b.height)
    (hww : a.width = b.width)
    (hbit : ∀ i j, i < a.height → j < a.width → a.indexPair (i, j) = b.indexPair (i, j)) :
    a.storage = b.storage := by
  apply List.ext_getElem?
  intro n
  by_cases hn : n < a.height * a.width
  · have hw : 0 < a.width := by
      rcases Nat.eq_zero_or_pos a.width with h0 | h0
      · rw [h0, Nat.mul_zero] at hn
        omega
      · exact h0
    have hi : n / a.width < a.height := (Nat.div_lt_iff_lt_mul hw).mpr hn
    have hj : n % a.width < a.width := Nat.mod_lt _ hw
    have hsplit : n / a.width * a.width + n % a.width = n := by
      rw [Nat.mul_comm]
      exact Nat.div_add_mod n a.width
    have h1 : a.indexPair (n / a.width, n % a.width) = a.storage[n]? := by
      rw [indexPair_lookup ha hi hj, hsplit]
    have h2 : b.indexPair (n / a.width, n % a.width) = b.storage[n]? := by
      rw [indexPair_lookup hb (by rw [← hh]; exact hi) (by rw [← hww]; exact hj)]
      rw [← hww, hsplit]
    rw [← h1, ← h2, hbit _ _ hi hj]
  · rw [List.getElem?_eq_none, List.getElem?_eq_none]
    · rw [hb, ← hh, ← hww]
      omega
    · rw [ha]
      omega

/-! Claim theorems. -/

/-- Claim C3: for all `height` and `width`, `new(height, width)` has
`height() = height` and `width() = width`, its buffer holds exactly
`height * width` addressable bits, and every in-range cell reads `false`. -/
theorem new_spec (h w : Nat) :
    (BitMatrix.new h w).height = h ∧ (BitMatrix.new h w).width = w ∧
    (BitMatrix.new h w).storage.length = h * w ∧
    ∀ i j, i < h → j < w → (BitMatrix.new h w).indexPair (i, j) = some false := by
  refine ⟨rfl, rfl, by simp [BitMatrix.new], ?_⟩
  intro i j hi hj
  have hm : (BitMatrix.new h w).wf := by simp [BitMatrix.new, BitMatrix.wf]
  have ht : i * w + j < h * w := by
    have h1 : (i + 1) * w ≤ h * w := Nat.mul_le_mul_right _ hi
    rw [Nat.succ_mul] at h1
    omega
  rw [indexPair_lookup hm hi hj]
  show (List.replicate (h * w) false)[i * w + j]? = some false
  rw [List.getElem?_replicate, if_pos ht]

/-- Witness for C3 at `new(2, 3)`, cell `(1, 2)`. -/
theorem new_spec_witness : (BitMatrix.new 2 3).indexPair (1, 2) = some false :=
  (new_spec 2 3).2.2.2 1 2 (by decide) (by decide)

/-- Claim C1 counterexample: on the matrix `new(1, 0)` (width `0`), row access
with row index `1 = height` succeeds and returns the empty row view, instead of
failing as the claim demands for every matrix. -/
theorem oob_access_width_zero_cex : (BitMatrix.new 1 0).index 1 = some [] := by
  decide

/-- Claim C1 (amended): for every well-formed matrix, pair-indexed access and
`set` with row index `≥ height` or column index `≥ width` fail; row access with
row index `≥ height` fails provided `width > 0`; and when both dimensions are
positive, pair access, `set` and row access at row `height - 1` / column
`width - 1` all succeed. -/
theorem oob_access_spec (m : BitMatrix) (hm : m.wf) :
    (∀ i j v, m.height ≤ i ∨ m.width ≤ j →
      m.indexPair (i, j) = none ∧ m.set (i, j) v = none) ∧
    (0 < m.width → ∀ i, m.height ≤ i → m.index i = none) ∧
    (0 < m.height → 0 < m.width →
      (∃ b, m.indexPair (m.height - 1, m.width - 1) = some b) ∧
      (∀ v, ∃ m2, m.set (m.height - 1, m.width - 1) v = some m2) ∧
      (∃ r, m.index (m.height - 1) = some r)) := by
  refine ⟨?_, ?_, ?_⟩
  · intro i j v hij
    exact ⟨indexPair_oob hm hij, set_oob hm hij v⟩
  · intro hw i hi
    exact index_oob hm hw hi
  · intro hh hw
    have hi : m.height - 1 < m.height := by omega
    have hj : m.width - 1 < m.width := by omega
    refine ⟨?_, ?_, index_in_range hm hi⟩
    · rw [indexPair_in_range hm hi hj]
      exact ⟨_, rfl⟩
    · intro v
      exact ⟨_, set_eq_some hm hi hj v⟩

/-- Witness for C1 (amended) at `new(2, 3)`. -/
theorem oob_access_spec_witness :
    ((BitMatrix.new 2 3).indexPair (2, 0) = none ∧
      (BitMatrix.new 2 3).set (2, 0) true = none) ∧
    (BitMatrix.new 2 3).index 2 = none ∧
    (∃ b, (BitMatrix.new 2 3).indexPair (1, 2) = some b) :=
  ⟨(oob_access_spec (BitMatrix.new 2 3) (by decide)).1 2 0 true (Or.inl (by decide)),
   (oob_access_spec (BitMatrix.new 2 3) (by decide)).2.1 (by decide) 2 (by decide),
   ((oob_access_spec (BitMatrix.new 2 3) (by decide)).2.2 (by decide) (by decide)).1⟩

/-- Claim C2: for every in-range `(i, j)` and boolean `v`, `set((i, j), v)`
succeeds, reading `(i, j)` afterwards yields `v`, and every other cell is
unchanged. -/
theorem set_get_frame (m : BitMatrix) (hm : m.wf) (i j : Nat) (v : Bool)
    (hi : i < m.height) (hj : j < m.width) :
    ∃ m2, m.set (i, j) v = some m2 ∧ m2.indexPair (i, j) = some v ∧
      ∀ i' j', (i', j') ≠ (i, j) → m2.indexPair (i', j') = m.indexPair (i', j') := by
  obtain ⟨m2, h1, h2, h3, h4, h5, h6⟩ := set_frame hm hi hj v
  exact ⟨m2, h1, h5, h6⟩

/-- Witness for C2 at `new(2, 3)`, cell `(1, 2)`, value `true`. -/
theorem set_get_frame_witness :
    ∃ m2, (BitMatrix.new 2 3).set (1, 2) true = some m2 ∧
      m2.indexPair (1, 2) = some true ∧
      ∀ i' j', (i', j') ≠ (1, 2) →
        m2.indexPair (i', j') = (BitMatrix.new 2 3).indexPair (i', j') :=
  set_get_frame (BitMatrix.new 2 3) (by decide) 1 2 true (by decide) (by decide)

/-- Claim C4: `iter()` yields exactly `height * width` bits and the `k`-th one
is the bit at cell `(k / width, k % width)`, i.e. row-major order. -/
theorem iter_rowmajor (m : BitMatrix) (hm : m.wf) :
    m.iter.length = m.height * m.width ∧
    ∀ k, k < m.height * m.width →
      m.iter[k]? = m.indexPair (k / m.width, k % m.width) := by
  refine ⟨hm, ?_⟩
  intro k hk
  have hw : 0 < m.width := by
    rcases Nat.eq_zero_or_pos m.width with h0 | h0
    · rw [h0, Nat.mul_zero] at hk
      omega
    · exact h0
  have hi : k / m.width < m.height := (Nat.div_lt_iff_lt_mul hw).mpr hk
  have hj : k % m.width < m.width := Nat.mod_lt _ hw
  rw [indexPair_lookup hm hi hj]
  have hsplit : k / m.width * m.width + k % m.width = k := by
    rw [Nat.mul_comm]
    exact Nat.div_add_mod k m.width
  rw [hsplit]
  rfl

/-- Witness for C4 at `new(2, 3)`, position `k = 4`. -/
theorem iter_rowmajor_witness :
    (BitMatrix.new 2 3).iter[4]? =
      (BitMatrix.new 2 3).indexPair
        (4 / (BitMatrix.new 2 3).width, 4 % (BitMatrix.new 2 3).width) :=
  (iter_rowmajor (BitMatrix.new 2 3) (by decide)).2 4 (by decide)

/-- Claim C5 counterexample: on the matrix `new(2, 0)` (height `2`, width `0`),
`rows()` panics inside `chunks_exact(0)` (modelled as `none`) instead of
yielding `height = 2` row views. -/
theorem rows_width_zero_cex :
    (BitMatrix.new 2 0).height = 2 ∧ (BitMatrix.new 2 0).rows = none := by
  decide

/-- Claim C5 (amended): for every well-formed matrix with positive width,
`rows()` yields exactly `height` views, each of length `width`, the `k`-th view
equal to the row view of row `k`; the views concatenate back to the whole
storage (hence are pairwise non-overlapping and together cover it); and
`rows_mut()` yields the same decomposition. -/
theorem rows_decomposition (m : BitMatrix) (hm : m.wf) (hw : 0 < m.width) :
    ∃ rs, m.rows = some rs ∧ rs.length = m.height ∧
      (∀ r, r ∈ rs → r.length = m.width) ∧
      (∀ k, k < m.height → rs[k]? = m.index k) ∧
      rs.flatten = m.storage ∧
      m.rows_mut = m.rows := by
  obtain ⟨h1, h2, h3, h4⟩ := chunksExact_spec hw hm
  refine ⟨chunksExact m.storage m.width, ?_, h1, h3, ?_, h2, rfl⟩
  · simp [BitMatrix.rows, hw]
  · intro k hk
    have hle : (k + 1) * m.width ≤ m.storage.length := by
      rw [hm]
      exact Nat.mul_le_mul_right _ hk
    rw [h4 k hk, index_eq_of_le hle]

/-- Witness for C5 (amended) at `new(2, 3)`. -/
theorem rows_decomposition_witness :
    ∃ rs, (BitMatrix.new 2 3).rows = some rs ∧
      rs.length = (BitMatrix.new 2 3).height ∧
      (∀ r, r ∈ rs → r.length = (BitMatrix.new 2 3).width) ∧
      (∀ k, k < (BitMatrix.new 2 3).height → rs[k]? = (BitMatrix.new 2 3).index k) ∧
      rs.flatten = (BitMatrix.new 2 3).storage ∧
      (BitMatrix.new 2 3).rows_mut = (BitMatrix.new 2 3).rows :=
  rows_decomposition (BitMatrix.new 2 3) (by decide) (by decide)

/-- Claim C6: the invariant `storage.len() = height * width` holds after `new`
and is preserved by every mutation — `set` (which is exactly a write through a
mutable row view), `set_all`, and assignments through `iter_mut` — and no
mutation changes `height` or `width`. -/
theorem shape_invariant :
    (∀ h w, (BitMatrix.new h w).wf) ∧
    (∀ m i j v m2, BitMatrix.wf m → m.set (i, j) v = some m2 →
      m2.wf ∧ m2.height = m.height ∧ m2.width = m.width) ∧
    (∀ (m : BitMatrix) v, m.wf →
      (m.set_all v).wf ∧ (m.set_all v).height = m.height ∧
        (m.set_all v).width = m.width) ∧
    (∀ (m : BitMatrix) k v, m.wf →
      (m.iterMutSet k v).wf ∧ (m.iterMutSet k v).height = m.height ∧
        (m.iterMutSet k v).width = m.width) := by
  refine ⟨?_, ?_, ?_, ?_⟩
  · intro h w
    show (List.replicate (h * w) false).length = h * w
    simp
  · intro m i j v m2 hm hset
    rcases hr : m.index i with _ | r
    · simp only [BitMatrix.set, hr] at hset
      cases hset
    · simp only [BitMatrix.set, hr] at hset
      by_cases hj : j < r.length
      · rw [if_pos hj] at hset
        rw [← Option.some.inj hset]
        refine ⟨?_, rfl, rfl⟩
        show (m.storage.set (m.row_ix i + j) v).length = m.height * m.width
        rw [List.length_set]
        exact hm
      · rw [if_neg hj] at hset
        cases hset
  · intro m v hm
    refine ⟨?_, rfl, rfl⟩
    show (List.replicate m.storage.length v).length = m.height * m.width
    rw [List.length_replicate]
    exact hm
  · intro m k v hm
    refine ⟨?_, rfl, rfl⟩
    show (m.storage.set k v).length = m.height * m.width
    rw [List.length_set]
    exact hm

/-- Witness for C6: the invariant after `new(2, 3)`, after `set_all`, after a
write through `iter_mut`, and after `set((1, 2), true)`. -/
theorem shape_invariant_witness :
    (BitMatrix.new 2 3).wf ∧ ((BitMatrix.new 2 3).set_all true).wf ∧
      ((BitMatrix.new 2 3).iterMutSet 4 true).wf ∧
      (BitMatrix.mk [false, false, false, false, false, true] 2 3).wf :=
  ⟨shape_invariant.1 2 3,
   (shape_invariant.2.2.1 (BitMatrix.new 2 3) true (by decide)).1,
   (shape_invariant.2.2.2 (BitMatrix.new 2 3) 4 true (by decide)).1,
   (shape_invariant.2.1 (BitMatrix.new 2 3) 1 2 true
      (BitMatrix.mk [false, false, false, false, false, true] 2 3)
      (by decide) (by decide)).1⟩

/-- Claim C7: two well-formed matrices are equal under the derived equality iff
their heights, widths and all corresponding bits agree, and equal matrices have
equal hash values. -/
theorem eq_hash_spec (a b : BitMatrix) (ha : a.wf) (hb : b.wf) :
    (a.beq b = true ↔
      a.height = b.height ∧ a.width = b.width ∧
      ∀ i j, i < a.height → j < a.width → a.indexPair (i, j) = b.indexPair (i, j)) ∧
    (a.beq b = true → a.hashFields = b.hashFields) := by
  constructor
  · constructor
    · intro h
      obtain ⟨hs, hh, hw⟩ := beq_iff.mp h
      refine ⟨hh, hw, ?_⟩
      intro i j hi hj
      have hrow : a.index i = b.index i := by
        simp only [BitMatrix.index, BitMatrix.row_ix, hs, hw]
      simp only [BitMatrix.indexPair, hrow]
    · rintro ⟨hh, hw, hbit⟩
      exact beq_iff.mpr ⟨storage_ext ha hb hh hw hbit, hh, hw⟩
  · intro h
    obtain ⟨hs, hh, hw⟩ := beq_iff.mp h
    simp only [BitMatrix.hashFields, hs, hh, hw]

/-- Witness for C7 at `new(2, 3)` compared with itself. -/
theorem eq_hash_spec_witness :
    (BitMatrix.new 2 3).hashFields = (BitMatrix.new 2 3).hashFields :=
  (eq_hash_spec (BitMatrix.new 2 3) (BitMatrix.new 2 3) (by decide) (by decide)).2
    (by decide)

/-- Claim C8: for every in-range row index `i`, the row view exists, has length
`width`, and pair access `m[(i, j)]` equals indexing the row view at `j` for
every `j`; in particular the view's bits are `get(i, 0), …, get(i, width-1)`. -/
theorem row_view_equiv (m : BitMatrix) (hm : m.wf) (i : Nat) (hi : i < m.height) :
    ∃ r, m.index i = some r ∧ r.length = m.width ∧
      ∀ j, m.indexPair (i, j) = r[j]? := by
  obtain ⟨r, hr⟩ := index_in_range hm hi
  exact ⟨r, hr, index_length hr, fun j => by simp only [BitMatrix.indexPair, hr]⟩

/-- Witness for C8 at `new(2, 3)`, row `1`. -/
theorem row_view_equiv_witness :
    ∃ r, (BitMatrix.new 2 3).index 1 = some r ∧
      r.length = (BitMatrix.new 2 3).width ∧
      ∀ j, (BitMatrix.new 2 3).indexPair (1, j) = r[j]? :=
  row_view_equiv (BitMatrix.new 2 3) (by decide) 1 (by decide)

/-- Claim C9: on a matrix of width `0`, row access with any row index
whatsoever (in particular every `i ≥ height`) succeeds and returns the empty
row view, because the computed range `[i * 0, (i + 1) * 0)` is the always-valid
empty range. -/
theorem width_zero_row_access (m : BitMatrix) (hw : m.width = 0) (i : Nat) :
    m.index i = some [] := by
  have hb : m.row_ix i = 0 := by simp [BitMatrix.row_ix, hw]
  have he : m.row_ix (i + 1) = 0 := by simp [BitMatrix.row_ix, hw]
  rw [BitMatrix.index, hb, he, listSlice_eq_some (Nat.le_refl 0) (Nat.zero_le _)]
  simp

/-- Witness for C9 at `new(3, 0)`, row index `100 ≥ height`. -/
theorem width_zero_row_access_witness : (BitMatrix.new 3 0).index 100 = some [] :=
  width_zero_row_access (BitMatrix.new 3 0) (by decide) 100

/-- Claim C10: `clone` produces a matrix equal to the original (field-wise and
under the derived equality), and mutating the clone leaves the original's bits
untouched: in this pure embedding the original value cannot change, and every
non-target cell of the mutated clone still reads the original's bit. -/
theorem clone_spec (m : BitMatrix) (hm : m.wf) :
    m.clone = m ∧ m.clone.beq m = true ∧
    ∀ i j v, i < m.height → j < m.width →
      ∃ m2, m.clone.set (i, j) v = some m2 ∧ m2.indexPair (i, j) = some v ∧
        ∀ i' j', (i', j') ≠ (i, j) → m2.indexPair (i', j') = m.indexPair (i', j') := by
  have hc : m.clone = m := rfl
  refine ⟨hc, ?_, ?_⟩
  · rw [hc]
    exact beq_iff.mpr ⟨rfl, rfl, rfl⟩
  · intro i j v hi hj
    rw [hc]
    obtain ⟨m2, h1, h2, h3, h4, h5, h6⟩ := set_frame hm hi hj v
    exact ⟨m2, h1, h5, h6⟩

/-- Witness for C10 at `new(2, 3)`. -/
theorem clone_spec_witness : (BitMatrix.new 2 3).clone = BitMatrix.new 2 3 :=
  (clone_spec (BitMatrix.new 2 3) (by decide)).1
